import Mathlib

/-!
Formal model of the nomos-da FFI wrapper (`src/ffi-wrapper/src/lib.rs`).

The wrapper itself (null checks, argument validation, result codes, the last-error
channel) is translated directly from the Rust source.  The underlying `kzgrs_backend`
data-availability core (`DaEncoder::encode`, `EncodedData::to_da_share`,
`reconstruct_without_missing_data`, the bincode serialization) is not part of this
repository's sources; those parts are modelled from the spec, as marked in their
doc comments.  Pointers are modelled as `Option` values (`none` = null), out-pointers
as `Bool` flags plus an extra component of the result, and the thread-local
`LAST_ERROR` cell as an explicit `Option String` state threaded through each call.
-/

namespace NomosDa

/-- The chunk width `DaEncoderParams::MAX_BLS12_381_ENCODING_CHUNK_SIZE`: 31 bytes,
one byte below the 32-byte scalar-field element size so chunks embed injectively. -/
def MAX_BLS12_381_ENCODING_CHUNK_SIZE : ℕ := 31

/-- Little-endian base-256 encoding of `n` on exactly `k` bytes. -/
def natToLE : ℕ → ℕ → List ℕ
  | 0, _ => []
  | k + 1, n => n % 256 :: natToLE k (n / 256)

/-- Split a list into consecutive pieces of `n` elements; the last piece may be
shorter, and no piece is empty. -/
def chunksOf {α : Type} (n : ℕ) : List α → List (List α)
  | [] => []
  | x :: xs => (x :: xs.take (n - 1)) :: chunksOf n (xs.drop (n - 1))
termination_by l => l.length
decreasing_by simp [List.length_drop]; omega

/-- The all-zero 31-byte chunk (used for the virtual zero-extension of short rows). -/
def zeroChunk : List ℕ := List.replicate MAX_BLS12_381_ENCODING_CHUNK_SIZE 0

/-- Modelled from the spec: `kzgrs_backend::common::share::DaShare` — one column's
view of the encoding: the column's 31-byte chunk from every row, the share index,
that column's aggregated opening proof, and the row commitments.  Commitments and
proofs are opaque fixed-size cryptographic objects whose algebra lives outside this
repository; they are modelled as natural numbers. -/
structure DaShare where
  column : List (List ℕ)
  shareIdx : ℕ
  combinedColumnProof : ℕ
  rowsCommitments : List ℕ
deriving DecidableEq

instance : Inhabited DaShare := ⟨⟨[], 0, 0, []⟩⟩

/-- Modelled from the spec: `kzgrs_backend::common::share::DaSharesCommitments`,
the ordered row commitments needed to verify a share. -/
structure DaSharesCommitments where
  rowsCommitments : List ℕ
deriving DecidableEq

/-- Modelled from the spec: `kzgrs_backend::encoder::EncodedData` — padded bytes,
chunked rows, Reed-Solomon-extended rows, row commitments and one combined proof
per column. -/
structure EncodedData where
  data : List ℕ
  chunkedData : List (List (List ℕ))
  extendedData : List (List (List ℕ))
  rowCommitments : List ℕ
  combinedColumnProofs : List ℕ
deriving DecidableEq

/-- Modelled from the spec: the encoder parameters; only the column count is
relevant to the wrapper's behaviour. -/
structure DaEncoderParams where
  columnCount : ℕ
deriving DecidableEq

/-- `DaEncoderParams::default_with(column_count)`. -/
def DaEncoderParams.default_with (column_count : ℕ) : DaEncoderParams :=
  ⟨column_count⟩

/-- Modelled from the spec: `kzgrs_backend::encoder::DaEncoder`, fixed per-instance
parameters. -/
structure DaEncoder where
  params : DaEncoderParams
deriving DecidableEq

/-- Modelled from the spec: `kzgrs_backend::verifier::DaVerifier`; it holds the
(external, process-wide) verification key, modelled opaquely. -/
structure DaVerifier where
  key : ℕ
deriving DecidableEq

section Core

variable {F : Type} [Field F] [DecidableEq F]

/-- The Lagrange basis polynomial for node `xi` among the nodes of `pts`,
evaluated at `x`: the product of `(x - xj) / (xi - xj)` over all other nodes. -/
def lagrangeBasisAt (pts : List (F × F)) (xi x : F) : F :=
  ((pts.filter (fun q => decide (q.1 ≠ xi))).map (fun q => (x - q.1) / (xi - q.1))).prod

/-- Modelled from the spec: evaluation at `x` of the unique polynomial of degree
below `pts.length` passing through the (evaluation-point, value) pairs `pts`
(Lagrange interpolation). -/
def lagrangeEval (pts : List (F × F)) (x : F) : F :=
  (pts.map (fun p => p.2 * lagrangeBasisAt pts p.1 x)).sum

variable (toF : List ℕ → F) (fromF : F → List ℕ)

/-- Modelled from the spec: the (evaluation-point, value) pairs of one row before
extension, the row being logically zero-extended to `k = chunks_per_row` chunks;
the evaluation point assigned to column `i` is `(i : F)`. -/
def encNodes (k : ℕ) (row : List (List ℕ)) : List (F × F) :=
  (List.range k).map (fun (i : ℕ) => ((i : F), toF (row.getD i zeroChunk)))

/-- Modelled from the spec: Reed-Solomon row extension — evaluate the row's
degree-below-`c/2` polynomial at all `c` column points, producing a systematic
maximum-distance-separable code. -/
def extendRow (c : ℕ) (row : List (List ℕ)) : List (List ℕ) :=
  (List.range c).map
    (fun (j : ℕ) => fromF (lagrangeEval (encNodes toF (c / 2) row) (j : F)))

/-- Modelled from the spec: the commitment to one row's pre-extension polynomial,
a pure deterministic function of the row bytes (the commitment scheme itself is an
external capability; the digest is modelled as an injective function of the row). -/
def commitRow (row : List (List ℕ)) : ℕ :=
  Nat.ofDigits 256 row.flatten

/-- Modelled from the spec: the aggregated opening proof for column `j` across all
extended rows, a pure deterministic function of the extended data and the column
index (the proof's algebraic content is external; modelled as an injective pairing). -/
def proveColumn (ext : List (List (List ℕ))) (j : ℕ) : ℕ :=
  Nat.pair j (Nat.ofDigits 256 ((ext.map (fun r => r.getD j zeroChunk)).flatten))

/-- Modelled from the spec: `DaEncoder::encode` — pad to a multiple of 31 bytes,
chunk into rows of `c/2` 31-byte chunks, Reed-Solomon-extend each row to `c`
columns, commit each row, and produce one combined proof per column. -/
def encode (c : ℕ) (data : List ℕ) : EncodedData :=
  let w := MAX_BLS12_381_ENCODING_CHUNK_SIZE
  let padded := data ++ List.replicate ((w - data.length % w) % w) 0
  let chunked := chunksOf (c / 2) (chunksOf w padded)
  let extended := chunked.map (extendRow toF fromF c)
  { data := padded
    chunkedData := chunked
    extendedData := extended
    rowCommitments := chunked.map commitRow
    combinedColumnProofs := (List.range c).map (proveColumn extended) }

/-- Modelled from the spec: `EncodedData::to_da_share` — fails when the index is
not below the column count (= the number of combined column proofs), otherwise
returns the share with `share_idx = index`, the column's chunk from every extended
row, that column's proof, and the full row commitments. -/
def EncodedData.to_da_share (ed : EncodedData) (index : ℕ) : Option DaShare :=
  if index < ed.combinedColumnProofs.length then
    some { column := ed.extendedData.map (fun row => row.getD index zeroChunk)
           shareIdx := index
           combinedColumnProof := ed.combinedColumnProofs.getD index 0
           rowsCommitments := ed.rowCommitments }
  else none

/-- Modelled from the spec: `kzgrs_backend::reconstruction::reconstruct_without_missing_data`
— for each row index, gather the (evaluation-point, value) pairs contributed by the
supplied shares, interpolate the unique polynomial of degree below the number of
shares, and read off the systematic chunk values at columns `0..shares.length`;
concatenate the recovered chunk bytes row-major. -/
def reconstruct_without_missing_data (shares : List DaShare) : List ℕ :=
  let k := shares.length
  let rows := ((shares.head?.map (fun s => s.column.length)).getD 0)
  ((List.range rows).map (fun r =>
    let pts := shares.map (fun (s : DaShare) => ((s.shareIdx : F), toF (s.column.getD r zeroChunk)))
    ((List.range k).map
      (fun (i : ℕ) => fromF (lagrangeEval pts (i : F)))).flatten)).flatten

end Core

/-- `NomosDaResult`: the FFI result code. -/
inductive NomosDaResult where
  | Success
  | ErrorInvalidInput
  | ErrorInternal
  | ErrorAllocation
deriving DecidableEq

/-- The thread-local `LAST_ERROR` cell. -/
abbrev FfiState := Option String

/-- `set_error`: store a diagnostic, replacing any previous one. -/
def set_error (err : String) (_ : FfiState) : FfiState := some err

/-- `take_error`: take the stored diagnostic out of the cell, leaving it empty. -/
def take_error (st : FfiState) : Option String × FfiState := (st, none)

/-- `nomos_da_get_last_error`: returns the stored diagnostic (null when none) and
clears the cell. -/
def nomos_da_get_last_error (st : FfiState) : Option String × FfiState :=
  take_error st

/-- `nomos_da_init`. -/
def nomos_da_init : NomosDaResult := NomosDaResult.Success

/-- `nomos_da_encoder_new`. -/
def nomos_da_encoder_new (column_count : ℕ) : DaEncoder :=
  ⟨DaEncoderParams.default_with column_count⟩

/-- `nomos_da_max_chunk_size`. -/
def nomos_da_max_chunk_size : ℕ := MAX_BLS12_381_ENCODING_CHUNK_SIZE

section Ffi

variable {F : Type} [Field F] [DecidableEq F] (toF : List ℕ → F) (fromF : F → List ℕ)

/-- `nomos_da_encoder_encode`: null checks, then the `data_len == 0` and
`data_len % 31 != 0` validations, then the core encoding.  `data = none` models a
null data pointer; `some bytes` models a valid pointer to `data_len = bytes.length`
bytes.  The core encode is total in the model (the spec says it fails only on
field-arithmetic inconsistency, which cannot occur for validated chunk widths). -/
def nomos_da_encoder_encode (encoder : Option DaEncoder) (data : Option (List ℕ))
    (data_len : ℕ) (out_handle : Bool) (st : FfiState) :
    NomosDaResult × Option EncodedData × FfiState :=
  match encoder, data, out_handle with
  | none, _, _ =>
    (NomosDaResult.ErrorInvalidInput, none,
      set_error ("Encoder handle is null (data_len: " ++ toString data_len ++ ")") st)
  | some _, none, _ =>
    (NomosDaResult.ErrorInvalidInput, none,
      set_error ("Data pointer is null (data_len: " ++ toString data_len ++ ")") st)
  | some _, some _, false =>
    (NomosDaResult.ErrorInvalidInput, none,
      set_error ("Output handle is null (data_len: " ++ toString data_len ++ ")") st)
  | some enc, some bytes, true =>
    if data_len = 0 then
      (NomosDaResult.ErrorInvalidInput, none,
        set_error ("Data length must be greater than 0 (chunk_size: " ++
          toString MAX_BLS12_381_ENCODING_CHUNK_SIZE ++ ")") st)
    else if data_len % MAX_BLS12_381_ENCODING_CHUNK_SIZE ≠ 0 then
      (NomosDaResult.ErrorInvalidInput, none,
        set_error ("Data length must be a multiple of chunk size (data_len: " ++
          toString data_len ++ ", chunk_size: " ++
          toString MAX_BLS12_381_ENCODING_CHUNK_SIZE ++ ")") st)
    else
      (NomosDaResult.Success, some (encode toF fromF enc.params.columnCount bytes), st)

/-- `nomos_da_encoded_data_get_data`: size-query protocol over the caller buffer.
`out_len` is the in/out capacity pointer; the second component of the result is its
new value, the third is the bytes written to `out_data` (none when nothing is
written).  Note that no failing branch of this function stores a diagnostic. -/
def nomos_da_encoded_data_get_data (handle : Option EncodedData) (out_data : Bool)
    (out_len : Option ℕ) (st : FfiState) :
    NomosDaResult × Option ℕ × Option (List ℕ) × FfiState :=
  match handle, out_data, out_len with
  | some ed, true, some cap =>
    if cap < ed.data.length then
      (NomosDaResult.ErrorInvalidInput, some ed.data.length, none, st)
    else
      (NomosDaResult.Success, some ed.data.length, some ed.data, st)
  | _, _, ol => (NomosDaResult.ErrorInvalidInput, ol, none, st)

/-- `nomos_da_encoded_data_get_share_count`: 0 for a null handle, otherwise the
number of combined column proofs. -/
def nomos_da_encoded_data_get_share_count (handle : Option EncodedData) : ℕ :=
  match handle with
  | none => 0
  | some ed => ed.combinedColumnProofs.length

/-- `nomos_da_encoded_data_get_share`: null checks, then `to_da_share`. -/
def nomos_da_encoded_data_get_share (handle : Option EncodedData) (index : ℕ)
    (out_share_handle : Bool) (st : FfiState) :
    NomosDaResult × Option DaShare × FfiState :=
  match handle, out_share_handle with
  | none, _ =>
    (NomosDaResult.ErrorInvalidInput, none,
      set_error ("EncodedData handle is null (share_index: " ++ toString index ++ ")") st)
  | some _, false =>
    (NomosDaResult.ErrorInvalidInput, none,
      set_error ("Output share handle is null (share_index: " ++ toString index ++ ")") st)
  | some ed, true =>
    match ed.to_da_share index with
    | some share => (NomosDaResult.Success, some share, st)
    | none =>
      let share_count := ed.combinedColumnProofs.length
      (NomosDaResult.ErrorInvalidInput, none,
        set_error ("Share index " ++ toString index ++ " is out of bounds. Valid range: 0.." ++
          toString share_count ++ " (share_count: " ++ toString share_count ++ ")") st)

/-- `nomos_da_share_get_index`: 0 (with a diagnostic) for a null handle, otherwise
the share's index. -/
def nomos_da_share_get_index (share_handle : Option DaShare) (st : FfiState) :
    ℕ × FfiState :=
  match share_handle with
  | none => (0, set_error ("Share handle is null") st)
  | some s => (s.shareIdx, st)

/-- `nomos_da_share_get_commitments`. -/
def nomos_da_share_get_commitments (share_handle : Option DaShare)
    (out_commitments_handle : Bool) (st : FfiState) :
    NomosDaResult × Option DaSharesCommitments × FfiState :=
  match share_handle, out_commitments_handle with
  | none, _ =>
    (NomosDaResult.ErrorInvalidInput, none, set_error ("Share handle is null") st)
  | some _, false =>
    (NomosDaResult.ErrorInvalidInput, none,
      set_error ("Output commitments handle pointer is null") st)
  | some s, true =>
    (NomosDaResult.Success, some ⟨s.rowsCommitments⟩, st)

/-- `nomos_da_verifier_verify`: null checks, the `rows_domain_size == 0` guard,
then the cryptographic check.  The aggregated KZG verification is external to this
repository, so it is a parameter `coreVerify`; every theorem below holds for all
values of that parameter. -/
def nomos_da_verifier_verify (coreVerify : DaVerifier → DaShare → ℕ → Bool)
    (verifier : Option DaVerifier) (share_handle : Option DaShare)
    (rows_domain_size : ℕ) (st : FfiState) : Bool × FfiState :=
  match verifier, share_handle with
  | none, _ =>
    (false, set_error ("Verifier handle is null (rows_domain_size: " ++
      toString rows_domain_size ++ ")") st)
  | some _, none =>
    (false, set_error ("Share handle is null (rows_domain_size: " ++
      toString rows_domain_size ++ ")") st)
  | some v, some share =>
    if rows_domain_size = 0 then
      (false, set_error ("Rows domain size must be greater than 0, got " ++
        toString rows_domain_size) st)
    else
      let is_valid := coreVerify v share rows_domain_size
      if is_valid then (true, st)
      else
        (false, set_error ("Share verification failed (share_idx: " ++
          toString share.shareIdx ++ ", rows_domain_size: " ++
          toString rows_domain_size ++ ")") st)

/-- `nomos_da_reconstruct`: null checks, the `share_count == 0` check, per-element
null checks, the core reconstruction, and the empty-reconstruction check.  The
`shares` argument models the `share_count`-element slice read from the raw pointer
(`none` = null shares pointer; inner `none` = null share handle in the array). -/
def nomos_da_reconstruct (shares : Option (List (Option DaShare)))
    (out_data out_len : Bool) (st : FfiState) :
    NomosDaResult × Option (List ℕ) × FfiState :=
  match shares, out_data, out_len with
  | none, _, _ =>
    (NomosDaResult.ErrorInvalidInput, none,
      set_error ("Shares array pointer is null") st)
  | some _, false, _ =>
    (NomosDaResult.ErrorInvalidInput, none,
      set_error ("Output data pointer is null") st)
  | some _, _, false =>
    (NomosDaResult.ErrorInvalidInput, none,
      set_error ("Output length pointer is null") st)
  | some l, true, true =>
    if l.length = 0 then
      (NomosDaResult.ErrorInvalidInput, none,
        set_error ("Share count must be greater than 0, got " ++ toString l.length) st)
    else
      match l.findIdx? (fun s => s.isNone) with
      | some i =>
        (NomosDaResult.ErrorInvalidInput, none,
          set_error ("Share handle pointer at index " ++ toString i ++
            " is null (share_count: " ++ toString l.length ++ ")") st)
      | none =>
        let da_shares := l.map (fun s => s.getD default)
        let reconstructed := reconstruct_without_missing_data toF fromF da_shares
        if reconstructed.isEmpty then
          (NomosDaResult.ErrorInternal, none,
            set_error ("Reconstructed data is empty (share_count: " ++
              toString l.length ++ ")") st)
        else
          (NomosDaResult.Success, some reconstructed, st)

end Ffi

/-! ### Serialization (spec-modelled)

The repository delegates share/commitments serialization to an external bincode
implementation (`nomos_core::codec`); only byte-exact round-tripping is specified,
not a fixed layout.  The model below is a concrete stable layout: little-endian
fixed-width integers (2-byte share index, 8-byte lengths, 48-byte commitment and
proof points, matching the u16 / u64 / compressed-G1 widths of the real types),
with chunks length-prefixed. -/

/-- 8-byte little-endian length field. -/
def serLen (n : ℕ) : List ℕ := natToLE 8 n

/-- One length-prefixed chunk. -/
def serChunk (ch : List ℕ) : List ℕ := serLen ch.length ++ ch

/-- One 48-byte cryptographic point (commitment or proof), modelled as a natural
number below `256 ^ 48`. -/
def serPoint (n : ℕ) : List ℕ := natToLE 48 n

/-- Modelled from the spec: `DaShare::to_bytes` (external bincode serialization). -/
def DaShare.to_bytes (s : DaShare) : List ℕ :=
  natToLE 2 s.shareIdx ++ serLen s.column.length ++ (s.column.map serChunk).flatten ++
    serPoint s.combinedColumnProof ++
    serLen s.rowsCommitments.length ++ (s.rowsCommitments.map serPoint).flatten

/-- Modelled from the spec: `DaSharesCommitments::to_bytes`. -/
def DaSharesCommitments.to_bytes (c : DaSharesCommitments) : List ℕ :=
  serLen c.rowsCommitments.length ++ (c.rowsCommitments.map serPoint).flatten

/-- Read `k` raw bytes from the front of the buffer. -/
def readBytes (k : ℕ) (bs : List ℕ) : Option (List ℕ × List ℕ) :=
  if k ≤ bs.length then some (bs.take k, bs.drop k) else none

/-- Read a `k`-byte little-endian natural number. -/
def readNatLE (k : ℕ) (bs : List ℕ) : Option (ℕ × List ℕ) :=
  (readBytes k bs).map (fun p => (Nat.ofDigits 256 p.1, p.2))

/-- Read `n` length-prefixed chunks. -/
def readChunks : ℕ → List ℕ → Option (List (List ℕ) × List ℕ)
  | 0, bs => some ([], bs)
  | n + 1, bs => do
    let (len, bs1) ← readNatLE 8 bs
    let (ch, bs2) ← readBytes len bs1
    let (rest, bs3) ← readChunks n bs2
    pure (ch :: rest, bs3)

/-- Read `n` 48-byte points. -/
def readPoints : ℕ → List ℕ → Option (List ℕ × List ℕ)
  | 0, bs => some ([], bs)
  | n + 1, bs => do
    let (pt, bs1) ← readNatLE 48 bs
    let (rest, bs2) ← readPoints n bs1
    pure (pt :: rest, bs2)

/-- Modelled from the spec: `DaShare::from_bytes`; fails on malformed or
incompletely consumed buffers. -/
def DaShare.from_bytes (bs : List ℕ) : Option DaShare := do
  let (idx, bs1) ← readNatLE 2 bs
  let (ncol, bs2) ← readNatLE 8 bs1
  let (column, bs3) ← readChunks ncol bs2
  let (proof, bs4) ← readNatLE 48 bs3
  let (ncom, bs5) ← readNatLE 8 bs4
  let (coms, bs6) ← readPoints ncom bs5
  if bs6 = [] then pure ⟨column, idx, proof, coms⟩ else none

/-- Modelled from the spec: `DaSharesCommitments::from_bytes`. -/
def DaSharesCommitments.from_bytes (bs : List ℕ) : Option DaSharesCommitments := do
  let (ncom, bs1) ← readNatLE 8 bs
  let (coms, bs2) ← readPoints ncom bs1
  if bs2 = [] then pure ⟨coms⟩ else none

/-- Range constraints carried by the real Rust types: the share index is a `u16`,
lengths are `u64`, commitments and the proof are 48-byte points. -/
def DaShare.wf (s : DaShare) : Prop :=
  s.shareIdx < 256 ^ 2 ∧ s.column.length < 256 ^ 8 ∧
    (∀ ch ∈ s.column, ch.length < 256 ^ 8) ∧
    s.combinedColumnProof < 256 ^ 48 ∧ s.rowsCommitments.length < 256 ^ 8 ∧
    ∀ cm ∈ s.rowsCommitments, cm < 256 ^ 48

/-- Range constraints for a commitments value. -/
def DaSharesCommitments.wf (c : DaSharesCommitments) : Prop :=
  c.rowsCommitments.length < 256 ^ 8 ∧ ∀ cm ∈ c.rowsCommitments, cm < 256 ^ 48

/-- `nomos_da_share_serialize`: null checks, then the external serializer
(total in the model). -/
def nomos_da_share_serialize (share_handle : Option DaShare)
    (out_buffer out_len : Bool) (st : FfiState) :
    NomosDaResult × Option (List ℕ) × FfiState :=
  match share_handle, out_buffer, out_len with
  | none, _, _ =>
    (NomosDaResult.ErrorInvalidInput, none, set_error ("Share handle is null") st)
  | some _, false, _ =>
    (NomosDaResult.ErrorInvalidInput, none,
      set_error ("Output buffer pointer is null") st)
  | some _, _, false =>
    (NomosDaResult.ErrorInvalidInput, none,
      set_error ("Output length pointer is null") st)
  | some s, true, true => (NomosDaResult.Success, some s.to_bytes, st)

/-- `nomos_da_share_deserialize`: null checks, `data_len == 0` check, then the
external deserializer. -/
def nomos_da_share_deserialize (data : Option (List ℕ))
    (out_share_handle : Bool) (st : FfiState) :
    NomosDaResult × Option DaShare × FfiState :=
  match data, out_share_handle with
  | none, _ =>
    (NomosDaResult.ErrorInvalidInput, none, set_error ("Data pointer is null") st)
  | some _, false =>
    (NomosDaResult.ErrorInvalidInput, none,
      set_error ("Output share handle pointer is null") st)
  | some bs, true =>
    if bs.length = 0 then
      (NomosDaResult.ErrorInvalidInput, none,
        set_error ("Data length must be greater than 0, got 0") st)
    else
      match DaShare.from_bytes bs with
      | some share => (NomosDaResult.Success, some share, st)
      | none =>
        (NomosDaResult.ErrorInvalidInput, none,
          set_error ("Share deserialization error") st)

/-- `nomos_da_commitments_serialize`. -/
def nomos_da_commitments_serialize (commitments_handle : Option DaSharesCommitments)
    (out_buffer out_len : Bool) (st : FfiState) :
    NomosDaResult × Option (List ℕ) × FfiState :=
  match commitments_handle, out_buffer, out_len with
  | none, _, _ =>
    (NomosDaResult.ErrorInvalidInput, none,
      set_error ("Commitments handle is null") st)
  | some _, false, _ =>
    (NomosDaResult.ErrorInvalidInput, none,
      set_error ("Output buffer pointer is null") st)
  | some _, _, false =>
    (NomosDaResult.ErrorInvalidInput, none,
      set_error ("Output length pointer is null") st)
  | some c, true, true => (NomosDaResult.Success, some c.to_bytes, st)

/-- `nomos_da_commitments_deserialize`. -/
def nomos_da_commitments_deserialize (data : Option (List ℕ))
    (out_commitments_handle : Bool) (st : FfiState) :
    NomosDaResult × Option DaSharesCommitments × FfiState :=
  match data, out_commitments_handle with
  | none, _ =>
    (NomosDaResult.ErrorInvalidInput, none, set_error ("Data pointer is null") st)
  | some _, false =>
    (NomosDaResult.ErrorInvalidInput, none,
      set_error ("Output commitments handle pointer is null") st)
  | some bs, true =>
    if bs.length = 0 then
      (NomosDaResult.ErrorInvalidInput, none,
        set_error ("Data length must be greater than 0, got 0") st)
    else
      match DaSharesCommitments.from_bytes bs with
      | some c => (NomosDaResult.Success, some c, st)
      | none =>
        (NomosDaResult.ErrorInvalidInput, none,
          set_error ("Commitments deserialization error") st)

/-- The concrete field used by witnesses: ℚ shares the property the core relies
on (31-byte chunks embed injectively into the scalar field, and small column
indices are distinct field elements). -/
def chunkToQ (l : List ℕ) : ℚ := (Nat.ofDigits 256 l : ℕ)

/-- Inverse embedding for ℚ: recover the 31 little-endian bytes of the value. -/
def chunkFromQ (q : ℚ) : List ℕ := natToLE 31 q.num.toNat

/-! ### Basic lemmas about the model -/

lemma encode_combinedColumnProofs_length {F : Type} [Field F] [DecidableEq F]
    (toF : List ℕ → F) (fromF : F → List ℕ) (c : ℕ) (data : List ℕ) :
    (encode toF fromF c data).combinedColumnProofs.length = c := by
  simp [encode]

lemma findIdx?_isNone_eq_none (l : List (Option DaShare))
    (h : ∀ s ∈ l, s ≠ none) : l.findIdx? (fun s => s.isNone) = none := by
  simp only [List.findIdx?_eq_none_iff]
  intro x hx
  cases x with
  | none => exact absurd rfl (h none hx)
  | some v => rfl

lemma encoder_encode_success_eq {F : Type} [Field F] [DecidableEq F]
    (toF : List ℕ → F) (fromF : F → List ℕ) (enc : DaEncoder) (bytes : List ℕ)
    (data_len : ℕ) (st : FfiState) (ed : EncodedData)
    (h : (nomos_da_encoder_encode toF fromF (some enc) (some bytes)
      data_len true st).2.1 = some ed) :
    ed = encode toF fromF enc.params.columnCount bytes := by
  by_cases h0 : data_len = 0
  · simp [nomos_da_encoder_encode, h0] at h
  · by_cases h31 : data_len % MAX_BLS12_381_ENCODING_CHUNK_SIZE = 0
    · simp [nomos_da_encoder_encode, h0, h31] at h
      exact h.symm
    · simp [nomos_da_encoder_encode, h0, h31] at h

/-! ### Serialization round-trip lemmas -/

lemma natToLE_length (k n : ℕ) : (natToLE k n).length = k := by
  induction k generalizing n with
  | zero => rfl
  | succ k ih => simp [natToLE, ih]

lemma ofDigits_natToLE (k n : ℕ) (h : n < 256 ^ k) :
    Nat.ofDigits 256 (natToLE k n) = n := by
  induction k generalizing n with
  | zero =>
    simp only [pow_zero] at h
    interval_cases n
    rfl
  | succ k ih =>
    have hdiv : n / 256 < 256 ^ k := by
      rw [pow_succ] at h
      omega
    simp only [natToLE, Nat.ofDigits_cons, ih _ hdiv]
    omega

lemma readBytes_append (l r : List ℕ) :
    readBytes l.length (l ++ r) = some (l, r) := by
  simp [readBytes, List.take_left, List.drop_left]

lemma readBytes_append_of_length (k : ℕ) (l r : List ℕ) (h : l.length = k) :
    readBytes k (l ++ r) = some (l, r) := by
  subst h
  exact readBytes_append l r

lemma readNatLE_append (k n : ℕ) (r : List ℕ) (h : n < 256 ^ k) :
    readNatLE k (natToLE k n ++ r) = some (n, r) := by
  rw [readNatLE, readBytes_append_of_length k _ _ (natToLE_length k n)]
  simp [ofDigits_natToLE k n h]

lemma readChunks_append (cs : List (List ℕ)) (r : List ℕ)
    (h : ∀ ch ∈ cs, ch.length < 256 ^ 8) :
    readChunks cs.length ((cs.map serChunk).flatten ++ r) = some (cs, r) := by
  induction cs generalizing r with
  | nil => simp [readChunks]
  | cons ch cs ih =>
    have h1 : ch.length < 256 ^ 8 := h ch (List.mem_cons_self _ _)
    have ih' := ih r (fun c hc => h c (List.mem_cons_of_mem _ hc))
    simp only [List.length_cons, List.map_cons, List.flatten_cons, serChunk,
      serLen, List.append_assoc]
    rw [readChunks, readNatLE_append 8 ch.length _ h1]
    simp only [Option.bind_eq_bind, Option.some_bind]
    rw [readBytes_append]
    simp [ih']

lemma readPoints_append (ps : List ℕ) (r : List ℕ)
    (h : ∀ p ∈ ps, p < 256 ^ 48) :
    readPoints ps.length ((ps.map serPoint).flatten ++ r) = some (ps, r) := by
  induction ps generalizing r with
  | nil => simp [readPoints]
  | cons p ps ih =>
    have h1 : p < 256 ^ 48 := h p (List.mem_cons_self _ _)
    have ih' := ih r (fun q hq => h q (List.mem_cons_of_mem _ hq))
    simp only [List.length_cons, List.map_cons, List.flatten_cons, serPoint,
      List.append_assoc]
    rw [readPoints, readNatLE_append 48 p _ h1]
    simp [ih']

lemma share_from_bytes_to_bytes (s : DaShare) (h : s.wf) :
    DaShare.from_bytes s.to_bytes = some s := by
  obtain ⟨h1, h2, h3, h4, h5, h6⟩ := h
  unfold DaShare.to_bytes DaShare.from_bytes
  simp only [serLen, serPoint, List.append_assoc]
  rw [readNatLE_append 2 _ _ h1]
  simp only [Option.bind_eq_bind, Option.some_bind]
  rw [readNatLE_append 8 _ _ h2]
  simp only [Option.some_bind]
  rw [readChunks_append _ _ h3]
  simp only [Option.some_bind]
  rw [readNatLE_append 48 _ _ h4]
  simp only [Option.some_bind]
  rw [readNatLE_append 8 _ _ h5]
  simp only [Option.some_bind]
  rw [← List.append_nil ((s.rowsCommitments.map serPoint).flatten),
    readPoints_append _ _ h6]
  simp

lemma commitments_from_bytes_to_bytes (c : DaSharesCommitments)
    (h : c.wf) : DaSharesCommitments.from_bytes c.to_bytes = some c := by
  obtain ⟨h1, h2⟩ := h
  unfold DaSharesCommitments.to_bytes DaSharesCommitments.from_bytes
  simp only [serLen, List.append_assoc]
  rw [readNatLE_append 8 _ _ h1]
  simp only [Option.bind_eq_bind, Option.some_bind]
  rw [← List.append_nil ((c.rowsCommitments.map serPoint).flatten),
    readPoints_append _ _ h2]
  simp

lemma share_to_bytes_length_ne_zero (s : DaShare) : s.to_bytes.length ≠ 0 := by
  simp [DaShare.to_bytes, natToLE_length]

lemma commitments_to_bytes_length_ne_zero (c : DaSharesCommitments) :
    c.to_bytes.length ≠ 0 := by
  simp [DaSharesCommitments.to_bytes, serLen, natToLE_length]

/-! ### List helper lemmas for the round-trip proof -/

lemma getD_map_range {β : Type} (c i : ℕ) (f : ℕ → β) (d : β) (h : i < c) :
    ((List.range c).map f).getD i d = f i := by
  rw [List.getD_eq_getElem?_getD, List.getElem?_map, List.getElem?_range h]
  rfl

lemma getD_map_of_lt {β γ : Type} (l : List β) (f : β → γ) (r : ℕ) (d : γ)
    (d' : β) (hr : r < l.length) :
    (l.map f).getD r d = f (l.getD r d') := by
  rw [List.getD_eq_getElem?_getD, List.getElem?_map,
    List.getElem?_eq_getElem hr, List.getD_eq_getElem?_getD,
    List.getElem?_eq_getElem hr]
  rfl

lemma getD_mem {α : Type} (l : List α) (i : ℕ) (d : α) (h : i < l.length) :
    l.getD i d ∈ l := by
  rw [List.getD_eq_getElem?_getD, List.getElem?_eq_getElem h]
  exact List.getElem_mem h

lemma range_map_getD {α : Type} (row : List α) (d : α) :
    ∀ n, row.length ≤ n →
      (List.range n).map (fun i => row.getD i d) =
        row ++ List.replicate (n - row.length) d := by
  induction row with
  | nil =>
    intro n _
    simp
  | cons a row ih =>
    intro n hn
    match n, hn with
    | m + 1, hn =>
      rw [List.range_succ_eq_map]
      simp only [List.map_cons, List.getD_cons_zero, List.map_map]
      have hcomp : ((fun i => (a :: row).getD i d) ∘ Nat.succ) =
          fun i => row.getD i d := by
        funext i
        simp [List.getD_cons_succ]
      rw [hcomp, ih m (by simpa using hn)]
      simp [Nat.succ_sub_succ]

lemma map_range_getD_eq_map {α β : Type} (l : List α) (d : α) (g : α → β) :
    (List.range l.length).map (fun r => g (l.getD r d)) = l.map g := by
  induction l with
  | nil => rfl
  | cons a l ih =>
    rw [List.length_cons, List.range_succ_eq_map]
    simp only [List.map_cons, List.getD_cons_zero, List.map_map]
    have hcomp : ((fun r => g ((a :: l).getD r d)) ∘ Nat.succ) =
        fun r => g (l.getD r d) := by
      funext r
      simp [List.getD_cons_succ]
    rw [hcomp, ih]

lemma chunksOf_flatten {α : Type} (n : ℕ) (hn : 0 < n) :
    ∀ l : List α, (chunksOf n l).flatten = l
  | [] => by simp [chunksOf]
  | x :: xs => by
    rw [chunksOf]
    simp only [List.flatten_cons]
    rw [chunksOf_flatten n hn (xs.drop (n - 1)), List.cons_append,
      List.take_append_drop]
termination_by l => l.length
decreasing_by simp [List.length_drop]; omega

lemma chunksOf_length_le {α : Type} (n : ℕ) (hn : 0 < n) :
    ∀ (l : List α), ∀ p ∈ chunksOf n l, p.length ≤ n
  | [], p, hp => by simp [chunksOf] at hp
  | x :: xs, p, hp => by
    rw [chunksOf] at hp
    rcases List.mem_cons.mp hp with h | h
    · subst h
      simp only [List.length_cons, List.length_take]
      omega
    · exact chunksOf_length_le n hn (xs.drop (n - 1)) p h
termination_by l => l.length
decreasing_by simp [List.length_drop]; omega

lemma chunksOf_length_eq {α : Type} (n : ℕ) (hn : 0 < n) :
    ∀ (l : List α), n ∣ l.length → ∀ p ∈ chunksOf n l, p.length = n
  | [], _, p, hp => by simp [chunksOf] at hp
  | x :: xs, hdvd, p, hp => by
    rw [chunksOf] at hp
    obtain ⟨m, hm⟩ := hdvd
    have hm1 : m ≠ 0 := by
      rintro rfl
      simp at hm
    obtain ⟨m', rfl⟩ := Nat.exists_eq_succ_of_ne_zero hm1
    rw [Nat.mul_succ] at hm
    simp only [List.length_cons] at hm
    rcases List.mem_cons.mp hp with h | h
    · subst h
      simp only [List.length_cons, List.length_take]
      omega
    · apply chunksOf_length_eq n hn (xs.drop (n - 1)) ?_ p h
      refine ⟨m', ?_⟩
      simp only [List.length_drop]
      omega
termination_by l => l.length
decreasing_by simp [List.length_drop]; omega

lemma chunksOf_mem_subset {α : Type} (n : ℕ) (hn : 0 < n) (l : List α)
    (p : List α) (hp : p ∈ chunksOf n l) : ∀ x ∈ p, x ∈ l := by
  intro x hx
  have hmem : x ∈ (chunksOf n l).flatten := List.mem_flatten.mpr ⟨p, hp, hx⟩
  rwa [chunksOf_flatten n hn l] at hmem

lemma chunksOf_length_bound {α : Type} (n : ℕ) (hn : 0 < n) :
    ∀ (l : List α), l.length ≤ (chunksOf n l).length * n
  | [] => by simp [chunksOf]
  | x :: xs => by
    rw [chunksOf]
    have hrec := chunksOf_length_bound n hn (xs.drop (n - 1))
    simp only [List.length_cons, List.length_drop] at hrec ⊢
    rw [Nat.add_mul, one_mul]
    omega
termination_by l => l.length
decreasing_by simp [List.length_drop]; omega

lemma chunksOf_extract_flatten {α : Type} (n : ℕ) (hn : 0 < n) (d : α) :
    ∀ (cs : List α),
      ((chunksOf n cs).map
        (fun row => (List.range n).map (fun i => row.getD i d))).flatten =
        cs ++ List.replicate ((chunksOf n cs).length * n - cs.length) d
  | [] => by simp [chunksOf]
  | x :: xs => by
    rw [chunksOf]
    simp only [List.map_cons, List.flatten_cons, List.length_cons]
    rw [chunksOf_extract_flatten n hn d (xs.drop (n - 1))]
    rw [range_map_getD (x :: xs.take (n - 1)) d n
      (by simp only [List.length_cons, List.length_take]; omega)]
    by_cases hcase : n - 1 ≤ xs.length
    · have hpl : (x :: xs.take (n - 1)).length = n := by
        simp only [List.length_cons, List.length_take]
        omega
      rw [hpl]
      simp only [Nat.sub_self, List.replicate_zero, List.append_nil]
      have hbound := chunksOf_length_bound n hn (xs.drop (n - 1))
      simp only [List.length_drop] at hbound
      have hcount : (chunksOf n (xs.drop (n - 1))).length * n -
          (xs.drop (n - 1)).length =
          ((chunksOf n (xs.drop (n - 1))).length + 1) * n - (xs.length + 1) := by
        rw [Nat.add_mul, one_mul]
        simp only [List.length_drop]
        omega
      rw [hcount, List.cons_append, ← List.append_assoc, List.take_append_drop,
        ← List.cons_append]
    · have htake : xs.take (n - 1) = xs := List.take_of_length_le (by omega)
      have hdrop : xs.drop (n - 1) = [] := List.drop_eq_nil_of_le (by omega)
      rw [htake, hdrop]
      simp only [chunksOf, List.length_nil, List.length_cons, List.map_nil,
        List.flatten_nil, List.append_nil, List.nil_append, Nat.zero_mul,
        Nat.sub_zero, List.replicate_zero]
      have hcount : n - (xs.length + 1) = (0 + 1) * n - (xs.length + 1) := by
        rw [Nat.zero_add, one_mul]
      rw [← hcount]
termination_by cs => cs.length
decreasing_by simp [List.length_drop]; omega

lemma flatten_length_of_all_eq {α : Type} (L : List (List α)) (w : ℕ)
    (h : ∀ p ∈ L, p.length = w) : L.flatten.length = L.length * w := by
  induction L with
  | nil => simp
  | cons p L ih =>
    simp only [List.flatten_cons, List.length_append, List.length_cons]
    rw [h p (List.mem_cons_self _ _), ih (fun q hq => h q (List.mem_cons_of_mem _ hq))]
    ring

lemma replicate_flatten {α : Type} (m w : ℕ) (x : α) :
    (List.replicate m (List.replicate w x)).flatten = List.replicate (m * w) x := by
  induction m with
  | zero => simp
  | succ m ih =>
    rw [List.replicate_succ, List.flatten_cons, ih, Nat.succ_mul, Nat.add_comm,
      ← List.replicate_add]

/-! ### Lagrange interpolation at a node -/

lemma lagrangeBasisAt_self {F : Type} [Field F] [DecidableEq F]
    (pts : List (F × F)) (xi : F) : lagrangeBasisAt pts xi xi = 1 := by
  apply List.prod_eq_one
  intro y hy
  simp only [lagrangeBasisAt, List.mem_map, List.mem_filter,
    decide_eq_true_eq] at hy
  obtain ⟨q, ⟨_, hne⟩, rfl⟩ := hy
  exact div_self (sub_ne_zero.mpr (Ne.symm hne))

lemma lagrangeBasisAt_ne {F : Type} [Field F] [DecidableEq F]
    (pts : List (F × F)) (p : F × F) (xi : F) (hp : p ∈ pts) (hne : p.1 ≠ xi) :
    lagrangeBasisAt pts xi p.1 = 0 := by
  apply List.prod_eq_zero
  refine List.mem_map.mpr ⟨p, List.mem_filter.mpr ⟨hp, by simpa using hne⟩, ?_⟩
  simp

lemma lagrangeEval_node {F : Type} [Field F] [DecidableEq F]
    (pts : List (F × F)) (p : F × F) (hp : p ∈ pts)
    (hnd : (pts.map Prod.fst).Nodup) : lagrangeEval pts p.1 = p.2 := by
  have hpts : pts.Nodup := hnd.of_map _
  obtain ⟨l', hperm⟩ : ∃ l', List.Perm pts (p :: l') :=
    ⟨_, List.perm_cons_erase hp⟩
  have hnodup : (p :: l').Nodup := hperm.nodup_iff.mp hpts
  have hsum := (hperm.map (fun q => q.2 * lagrangeBasisAt pts q.1 p.1)).sum_eq
  rw [lagrangeEval, hsum]
  simp only [List.map_cons, List.sum_cons]
  rw [lagrangeBasisAt_self, mul_one]
  have hinj := List.inj_on_of_nodup_map hnd
  have hz : (l'.map fun q => q.2 * lagrangeBasisAt pts q.1 p.1).sum = 0 := by
    apply List.sum_eq_zero
    intro x hx
    obtain ⟨q, hq, rfl⟩ := List.mem_map.mp hx
    have hq2 : q ∈ pts := hperm.mem_iff.mpr (List.mem_cons_of_mem _ hq)
    have hqne : q ≠ p := by
      intro h
      subst h
      exact (List.nodup_cons.mp hnodup).1 hq
    have hfst : p.1 ≠ q.1 := fun h => hqne (hinj hq2 hp h.symm)
    rw [lagrangeBasisAt_ne pts p q.1 hp hfst, mul_zero]
  rw [hz, add_zero]

/-! ### Systematic-path round-trip lemmas -/

lemma natToLE_ofDigits (l : List ℕ) (h : ∀ b ∈ l, b < 256) :
    natToLE l.length (Nat.ofDigits 256 l) = l := by
  induction l with
  | nil => rfl
  | cons a l ih =>
    have ha : a < 256 := h a (List.mem_cons_self _ _)
    simp only [List.length_cons, natToLE, Nat.ofDigits_cons]
    have h1 : (↑a + 256 * Nat.ofDigits 256 l) % 256 = a := by omega
    have h2 : (↑a + 256 * Nat.ofDigits 256 l) / 256 = Nat.ofDigits 256 l := by
      omega
    rw [h1, h2, ih (fun b hb => h b (List.mem_cons_of_mem _ hb))]

lemma chunkFromQ_chunkToQ (l : List ℕ) (hlen : l.length = 31)
    (hbytes : ∀ b ∈ l, b < 256) : chunkFromQ (chunkToQ l) = l := by
  rw [chunkToQ, chunkFromQ, Rat.num_natCast, Int.toNat_natCast, ← hlen]
  exact natToLE_ofDigits l hbytes

lemma encNodes_fst_nodup {F : Type} [Field F] [DecidableEq F] (toF : List ℕ → F)
    (k : ℕ) (row : List (List ℕ))
    (hcast : ∀ a b : ℕ, a < k → b < k → (a : F) = (b : F) → a = b) :
    ((encNodes toF k row).map Prod.fst).Nodup := by
  rw [encNodes, List.map_map]
  have hcomp : (Prod.fst ∘ fun (i : ℕ) => ((i : F), toF (row.getD i zeroChunk)))
      = fun (i : ℕ) => (i : F) := rfl
  rw [hcomp]
  exact (List.nodup_range k).map_on
    (fun a ha b hb hab =>
      hcast a b (List.mem_range.mp ha) (List.mem_range.mp hb) hab)

lemma lagrangeEval_encNodes {F : Type} [Field F] [DecidableEq F]
    (toF : List ℕ → F) (k : ℕ) (row : List (List ℕ)) (i : ℕ) (hi : i < k)
    (hcast : ∀ a b : ℕ, a < k → b < k → (a : F) = (b : F) → a = b) :
    lagrangeEval (encNodes toF k row) (i : F) = toF (row.getD i zeroChunk) := by
  have hp : ((i : F), toF (row.getD i zeroChunk)) ∈ encNodes toF k row := by
    rw [encNodes]
    exact List.mem_map.mpr ⟨i, List.mem_range.mpr hi, rfl⟩
  exact lagrangeEval_node _ _ hp (encNodes_fst_nodup toF k row hcast)

lemma extendRow_getD_systematic {F : Type} [Field F] [DecidableEq F]
    (toF : List ℕ → F) (fromF : F → List ℕ) (c : ℕ) (row : List (List ℕ))
    (i : ℕ) (hi : i < c / 2)
    (hcast : ∀ a b : ℕ, a < c / 2 → b < c / 2 → (a : F) = (b : F) → a = b)
    (hInv : fromF (toF (row.getD i zeroChunk)) = row.getD i zeroChunk) :
    (extendRow toF fromF c row).getD i zeroChunk = row.getD i zeroChunk := by
  have hic : i < c := lt_of_lt_of_le hi (Nat.div_le_self c 2)
  rw [extendRow, getD_map_range c i _ _ hic,
    lagrangeEval_encNodes toF (c / 2) row i hi hcast, hInv]

lemma chunk_getD_valid (blob : List ℕ) (hlen : blob.length % 31 = 0)
    (hbytes : ∀ b ∈ blob, b < 256) (k r i : ℕ) (hk : 0 < k) :
    (((chunksOf k (chunksOf 31 blob)).getD r []).getD i zeroChunk).length = 31 ∧
    ∀ b ∈ ((chunksOf k (chunksOf 31 blob)).getD r []).getD i zeroChunk,
      b < 256 := by
  by_cases hi : i < ((chunksOf k (chunksOf 31 blob)).getD r []).length
  · have hrowne : (chunksOf k (chunksOf 31 blob)).getD r [] ≠ [] := by
      intro hempty
      rw [hempty] at hi
      simp at hi
    have hr : r < (chunksOf k (chunksOf 31 blob)).length := by
      by_contra hge
      exact hrowne (List.getD_eq_default _ _ (by omega))
    have hrow_mem : (chunksOf k (chunksOf 31 blob)).getD r [] ∈
        chunksOf k (chunksOf 31 blob) := getD_mem _ r [] hr
    have hchunk_mem : ((chunksOf k (chunksOf 31 blob)).getD r []).getD i
        zeroChunk ∈ (chunksOf k (chunksOf 31 blob)).getD r [] :=
      getD_mem _ i zeroChunk hi
    have hchunk_cl : ((chunksOf k (chunksOf 31 blob)).getD r []).getD i
        zeroChunk ∈ chunksOf 31 blob :=
      chunksOf_mem_subset k hk (chunksOf 31 blob) _ hrow_mem _ hchunk_mem
    constructor
    · exact chunksOf_length_eq 31 (by norm_num) blob
        (Nat.dvd_of_mod_eq_zero hlen) _ hchunk_cl
    · intro b hb
      exact hbytes b
        (chunksOf_mem_subset 31 (by norm_num) blob _ hchunk_cl b hb)
  · rw [List.getD_eq_default _ _ (by omega)]
    refine ⟨by simp [zeroChunk, MAX_BLS12_381_ENCODING_CHUNK_SIZE], ?_⟩
    intro b hb
    rw [List.eq_of_mem_replicate hb]
    norm_num

lemma reconstruct_systematic {F : Type} [Field F] [DecidableEq F]
    (toF : List ℕ → F) (fromF : F → List ℕ) (c : ℕ) (blob : List ℕ)
    (hk : 0 < c / 2) (hlen : blob.length % 31 = 0)
    (hbytes : ∀ b ∈ blob, b < 256)
    (hInv : ∀ l : List ℕ, l.length = 31 → (∀ b ∈ l, b < 256) → fromF (toF l) = l)
    (hcast : ∀ a b : ℕ, a < c / 2 → b < c / 2 → (a : F) = (b : F) → a = b) :
    reconstruct_without_missing_data toF fromF
      ((List.range (c / 2)).map
        (fun i => ((encode toF fromF c blob).to_da_share i).getD default)) =
      blob ++ List.replicate
        ((chunksOf (c / 2) (chunksOf 31 blob)).length * (c / 2) * 31 -
          blob.length) 0 := by
  have hw : MAX_BLS12_381_ENCODING_CHUNK_SIZE = 31 := rfl
  have hpad : blob ++ List.replicate
      ((MAX_BLS12_381_ENCODING_CHUNK_SIZE -
        blob.length % MAX_BLS12_381_ENCODING_CHUNK_SIZE) %
        MAX_BLS12_381_ENCODING_CHUNK_SIZE) 0 = blob := by
    rw [hw, hlen]
    simp
  have hext : (encode toF fromF c blob).extendedData =
      (chunksOf (c / 2) (chunksOf 31 blob)).map (extendRow toF fromF c) := by
    rw [show (encode toF fromF c blob).extendedData =
        (chunksOf (c / 2) (chunksOf MAX_BLS12_381_ENCODING_CHUNK_SIZE
          (blob ++ List.replicate ((MAX_BLS12_381_ENCODING_CHUNK_SIZE -
            blob.length % MAX_BLS12_381_ENCODING_CHUNK_SIZE) %
            MAX_BLS12_381_ENCODING_CHUNK_SIZE) 0))).map
          (extendRow toF fromF c) from rfl, hpad, hw]
  have hvalid := chunk_getD_valid blob hlen hbytes (c / 2)
  have hshare : ∀ i, i < c / 2 →
      ((encode toF fromF c blob).to_da_share i).getD default =
      { column := (encode toF fromF c blob).extendedData.map
          (fun row => row.getD i zeroChunk)
        shareIdx := i
        combinedColumnProof :=
          (encode toF fromF c blob).combinedColumnProofs.getD i 0
        rowsCommitments := (encode toF fromF c blob).rowCommitments } := by
    intro i hi
    rw [EncodedData.to_da_share, if_pos]
    · rfl
    · rw [encode_combinedColumnProofs_length]
      exact lt_of_lt_of_le hi (Nat.div_le_self c 2)
  simp only [reconstruct_without_missing_data]
  rw [List.length_map, List.length_range]
  have hhead : (((List.range (c / 2)).map
      (fun i => ((encode toF fromF c blob).to_da_share i).getD
        default)).head?.map (fun s => s.column.length)).getD 0 =
      (chunksOf (c / 2) (chunksOf 31 blob)).length := by
    obtain ⟨m, hm⟩ : ∃ m, c / 2 = m + 1 := ⟨c / 2 - 1, by omega⟩
    rw [hm, List.range_succ_eq_map, List.map_cons, List.head?_cons,
      Option.map_some', Option.getD_some, hshare 0 (by omega)]
    simp only [List.length_map]
    rw [hext, List.length_map, hm]
  rw [hhead]
  have hinner : ∀ r, r < (chunksOf (c / 2) (chunksOf 31 blob)).length →
      (((List.range (c / 2)).map
        (fun i => ((encode toF fromF c blob).to_da_share i).getD
          default)).map (fun (s : DaShare) =>
            ((s.shareIdx : F), toF (s.column.getD r zeroChunk)))) =
      encNodes toF (c / 2)
        ((chunksOf (c / 2) (chunksOf 31 blob)).getD r []) := by
    intro r hr
    rw [List.map_map, encNodes]
    apply List.map_congr_left
    intro i hi
    have hik : i < c / 2 := List.mem_range.mp hi
    simp only [Function.comp_apply]
    rw [hshare i hik]
    have hrowlt : r < (encode toF fromF c blob).extendedData.length := by
      rw [hext, List.length_map]
      exact hr
    have hcol : ((encode toF fromF c blob).extendedData.map
        (fun row => row.getD i zeroChunk)).getD r zeroChunk =
        ((chunksOf (c / 2) (chunksOf 31 blob)).getD r []).getD i
          zeroChunk := by
      rw [getD_map_of_lt ((encode toF fromF c blob).extendedData) _ r
        zeroChunk [] hrowlt, hext,
        getD_map_of_lt (chunksOf (c / 2) (chunksOf 31 blob)) _ r [] [] hr]
      exact extendRow_getD_systematic toF fromF c _ i hik hcast
        (hInv _ (hvalid r i hk).1 (hvalid r i hk).2)
    exact congrArg (fun ch => (((i : ℕ) : F), toF ch)) hcol
  have hpoint : ∀ r ∈ List.range (chunksOf (c / 2) (chunksOf 31 blob)).length,
      (fun r =>
        ((List.range (c / 2)).map (fun (i : ℕ) =>
          fromF (lagrangeEval
            (((List.range (c / 2)).map
              (fun i => ((encode toF fromF c blob).to_da_share i).getD
                default)).map (fun (s : DaShare) =>
                  ((s.shareIdx : F), toF (s.column.getD r zeroChunk))))
            (i : F)))).flatten) r =
      (fun r => ((List.range (c / 2)).map (fun (i : ℕ) =>
        ((chunksOf (c / 2) (chunksOf 31 blob)).getD r []).getD i
          zeroChunk)).flatten) r := by
    intro r hr
    have hrlt := List.mem_range.mp hr
    simp only
    rw [hinner r hrlt]
    apply congrArg List.flatten
    apply List.map_congr_left
    intro i hi
    have hik : i < c / 2 := List.mem_range.mp hi
    rw [lagrangeEval_encNodes toF (c / 2) _ i hik hcast]
    exact hInv _ (hvalid r i hk).1 (hvalid r i hk).2
  have hblob_len : blob.length =
      (chunksOf 31 blob).length * 31 := by
    have hfl := chunksOf_flatten 31 (by norm_num) blob
    have := flatten_length_of_all_eq (chunksOf 31 blob) 31
      (chunksOf_length_eq 31 (by norm_num) blob
        (Nat.dvd_of_mod_eq_zero hlen))
    rw [hfl] at this
    exact this
  have hCL_bound : (chunksOf 31 blob).length ≤
      (chunksOf (c / 2) (chunksOf 31 blob)).length * (c / 2) :=
    chunksOf_length_bound (c / 2) hk (chunksOf 31 blob)
  have hcount : ((chunksOf (c / 2) (chunksOf 31 blob)).length * (c / 2) -
      (chunksOf 31 blob).length) * 31 =
      (chunksOf (c / 2) (chunksOf 31 blob)).length * (c / 2) * 31 -
        blob.length := by
    rw [Nat.sub_mul, hblob_len]
  exact (congrArg List.flatten (List.map_congr_left hpoint)).trans
    ((congrArg List.flatten (map_range_getD_eq_map
        (chunksOf (c / 2) (chunksOf 31 blob)) []
        (fun row => ((List.range (c / 2)).map (fun (i : ℕ) =>
          row.getD i zeroChunk)).flatten))).trans
      (((congrArg List.flatten (List.map_map (l := chunksOf (c / 2)
          (chunksOf 31 blob)) (f := fun row => (List.range (c / 2)).map
            (fun (i : ℕ) => row.getD i zeroChunk))
          (g := List.flatten)).symm).trans
        ((List.flatten_flatten).symm)).trans
        ((congrArg List.flatten (chunksOf_extract_flatten (c / 2) hk
            zeroChunk (chunksOf 31 blob))).trans
          ((List.flatten_append _ _).trans
            ((congrArg₂ (fun (a b : List ℕ) => a ++ b)
                (chunksOf_flatten 31 (by norm_num) blob)
                ((replicate_flatten _ 31 0).trans
                  (congrArg (fun m => List.replicate m 0) hcount))))))))

/-! ### Claim theorems -/



/-- C3: for every verifier handle and every share, `nomos_da_verifier_verify` with
`rows_domain_size == 0` returns false immediately; the result is the same for every
possible cryptographic check (so none is performed), and no error code is raised
(the function returns a plain boolean). -/
theorem c3_verify_zero_domain_returns_false
    (coreVerify : DaVerifier → DaShare → ℕ → Bool) (v : DaVerifier) (s : DaShare)
    (st : FfiState) :
    (nomos_da_verifier_verify coreVerify (some v) (some s) 0 st).1 = false := rfl

/-- C5: `nomos_da_encoder_encode` with `data_len == 0` returns `ErrorInvalidInput`
and produces no encoded-data handle, for every encoder handle and data pointer. -/
theorem c5_encode_zero_length_rejected {F : Type} [Field F] [DecidableEq F]
    (toF : List ℕ → F) (fromF : F → List ℕ) (encoder : Option DaEncoder)
    (data : Option (List ℕ)) (out_handle : Bool) (st : FfiState) :
    (nomos_da_encoder_encode toF fromF encoder data 0 out_handle st).1 =
      NomosDaResult.ErrorInvalidInput ∧
    (nomos_da_encoder_encode toF fromF encoder data 0 out_handle st).2.1 = none := by
  cases encoder <;> cases data <;> cases out_handle <;>
    simp [nomos_da_encoder_encode]

/-- C6: the encoder is the chunk-aligned configuration variant: every `data_len`
that is not a multiple of 31 (hence in particular every positive unaligned length)
is rejected with `ErrorInvalidInput` and no encoded-data handle is produced. -/
theorem c6_encode_unaligned_rejected {F : Type} [Field F] [DecidableEq F]
    (toF : List ℕ → F) (fromF : F → List ℕ) (encoder : Option DaEncoder)
    (data : Option (List ℕ)) (data_len : ℕ) (out_handle : Bool) (st : FfiState)
    (h : data_len % MAX_BLS12_381_ENCODING_CHUNK_SIZE ≠ 0) :
    (nomos_da_encoder_encode toF fromF encoder data data_len out_handle st).1 =
      NomosDaResult.ErrorInvalidInput ∧
    (nomos_da_encoder_encode toF fromF encoder data data_len out_handle st).2.1 =
      none := by
  have h0 : data_len ≠ 0 := by
    intro h'
    exact h (by simp [h', MAX_BLS12_381_ENCODING_CHUNK_SIZE])
  cases encoder <;> cases data <;> cases out_handle <;>
    simp [nomos_da_encoder_encode, h0, h]

theorem c6_witness :
    (1 : ℕ) % MAX_BLS12_381_ENCODING_CHUNK_SIZE ≠ 0 ∧
    (nomos_da_encoder_encode chunkToQ chunkFromQ (some (nomos_da_encoder_new 4))
      (some [7]) 1 true none).1 = NomosDaResult.ErrorInvalidInput ∧
    (nomos_da_encoder_encode chunkToQ chunkFromQ (some (nomos_da_encoder_new 4))
      (some [7]) 1 true none).2.1 = none :=
  ⟨by decide,
    c6_encode_unaligned_rejected chunkToQ chunkFromQ (some (nomos_da_encoder_new 4))
      (some [7]) 1 true none (by decide)⟩

/-- C9: `nomos_da_encoded_data_get_data` follows the size-query protocol: with a
capacity below the data length it returns `ErrorInvalidInput`, writes the required
length into `*out_len` and writes no bytes; with sufficient capacity it copies
exactly the data and sets `*out_len` to its length. -/
theorem c9_get_data_size_query (ed : EncodedData) (cap : ℕ) (st : FfiState) :
    (cap < ed.data.length →
      nomos_da_encoded_data_get_data (some ed) true (some cap) st =
        (NomosDaResult.ErrorInvalidInput, some ed.data.length, none, st)) ∧
    (ed.data.length ≤ cap →
      nomos_da_encoded_data_get_data (some ed) true (some cap) st =
        (NomosDaResult.Success, some ed.data.length, some ed.data, st)) := by
  constructor
  · intro h
    simp [nomos_da_encoded_data_get_data, h]
  · intro h
    simp [nomos_da_encoded_data_get_data, Nat.not_lt.mpr h]

theorem c9_witness :
    nomos_da_encoded_data_get_data (some ⟨[1, 2], [], [], [], []⟩) true (some 1)
        none =
      (NomosDaResult.ErrorInvalidInput, some 2, none, none) ∧
    nomos_da_encoded_data_get_data (some ⟨[1, 2], [], [], [], []⟩) true (some 2)
        none =
      (NomosDaResult.Success, some 2, some [1, 2], none) :=
  ⟨(c9_get_data_size_query ⟨[1, 2], [], [], [], []⟩ 1 none).1 (by decide),
   (c9_get_data_size_query ⟨[1, 2], [], [], [], []⟩ 2 none).2 (by decide)⟩

/-- C2 counterexample: calling `nomos_da_reconstruct` with a valid but empty share
array (`share_count == 0`) yields `ErrorInvalidInput`, not `ErrorInternal` as the
claim states. -/
theorem c2_counterexample :
    (nomos_da_reconstruct chunkToQ chunkFromQ (some []) true true none).1 =
      NomosDaResult.ErrorInvalidInput ∧
    NomosDaResult.ErrorInvalidInput ≠ NomosDaResult.ErrorInternal :=
  ⟨rfl, by decide⟩

/-- C2 (amended): `share_count == 0` fails with `ErrorInvalidInput`; shares that
yield an empty reconstruction fail with `ErrorInternal`; in both cases no output
data is written. -/
theorem c2_reconstruct_empty_failures {F : Type} [Field F] [DecidableEq F]
    (toF : List ℕ → F) (fromF : F → List ℕ) (st : FfiState) :
    ((nomos_da_reconstruct toF fromF (some []) true true st).1 =
        NomosDaResult.ErrorInvalidInput ∧
      (nomos_da_reconstruct toF fromF (some []) true true st).2.1 = none) ∧
    ∀ (l : List (Option DaShare)), l ≠ [] → (∀ s ∈ l, s ≠ none) →
      (reconstruct_without_missing_data toF fromF
        (l.map (fun s => s.getD default))).isEmpty = true →
      (nomos_da_reconstruct toF fromF (some l) true true st).1 =
          NomosDaResult.ErrorInternal ∧
        (nomos_da_reconstruct toF fromF (some l) true true st).2.1 = none := by
  refine ⟨⟨rfl, rfl⟩, ?_⟩
  intro l hne hsome hempty
  have hlen : ¬ l.length = 0 := by
    simpa [List.length_eq_zero] using hne
  simp [nomos_da_reconstruct, hlen, findIdx?_isNone_eq_none l hsome, hempty]

theorem c2_witness :
    (nomos_da_reconstruct chunkToQ chunkFromQ (some [some default]) true true
        none).1 = NomosDaResult.ErrorInternal ∧
    (nomos_da_reconstruct chunkToQ chunkFromQ (some [some default]) true true
        none).2.1 = none :=
  (c2_reconstruct_empty_failures chunkToQ chunkFromQ none).2 [some default]
    (by simp)
    (by
      intro s hs
      rw [List.mem_singleton] at hs
      subst hs
      exact Option.some_ne_none _)
    rfl

/-- C10 counterexample: `nomos_da_encoded_data_get_data` with a null handle fails
with `ErrorInvalidInput` but stores no diagnostic (the last-error cell stays
empty), refuting "every failing operation stores a diagnostic string". -/
theorem c10_counterexample :
    (nomos_da_encoded_data_get_data (none : Option EncodedData) true (some 100)
        none).1 = NomosDaResult.ErrorInvalidInput ∧
    (nomos_da_encoded_data_get_data (none : Option EncodedData) true (some 100)
        none).2.2.2 = none :=
  ⟨rfl, rfl⟩

/-- C10 (amended): the last-error channel is a take-once cell:
`nomos_da_get_last_error` returns the stored string and clears the cell (a second
consecutive call returns null); a verification that returns false stores a
diagnostic even though false is not an error code; failing operations such as
encode and reconstruct store a diagnostic — with the exception of
`nomos_da_encoded_data_get_data`, which never touches the cell. -/
theorem c10_last_error_channel {F : Type} [Field F] [DecidableEq F]
    (toF : List ℕ → F) (fromF : F → List ℕ) :
    (∀ st : FfiState, nomos_da_get_last_error st = (st, none)) ∧
    (∀ st : FfiState,
      (nomos_da_get_last_error (nomos_da_get_last_error st).2).1 = none) ∧
    (∀ (coreVerify : DaVerifier → DaShare → ℕ → Bool) (v : DaVerifier)
      (s : DaShare) (n : ℕ) (st : FfiState), n ≠ 0 → coreVerify v s n = false →
      (nomos_da_verifier_verify coreVerify (some v) (some s) n st).1 = false ∧
      (nomos_da_verifier_verify coreVerify (some v) (some s) n st).2.isSome =
        true) ∧
    (∀ (enc : DaEncoder) (bytes : List ℕ) (st : FfiState),
      (nomos_da_encoder_encode toF fromF (some enc) (some bytes) 0 true
        st).2.2.isSome = true) ∧
    (∀ st : FfiState,
      (nomos_da_reconstruct toF fromF (some []) true true st).2.2.isSome =
        true) ∧
    (∀ (handle : Option EncodedData) (od : Bool) (ol : Option ℕ) (st : FfiState),
      (nomos_da_encoded_data_get_data handle od ol st).2.2.2 = st) := by
  refine ⟨fun st => rfl, fun st => rfl, ?_, fun enc bytes st => rfl,
    fun st => rfl, ?_⟩
  · intro coreVerify v s n st hn hfalse
    simp [nomos_da_verifier_verify, hn, hfalse, set_error]
  · intro handle od ol st
    cases handle <;> cases od <;> cases ol <;>
      simp [nomos_da_encoded_data_get_data]
    split <;> rfl

theorem c10_witness :
    (nomos_da_verifier_verify (fun _ _ _ => false) (some ⟨0⟩) (some default) 1
        none).1 = false ∧
    (nomos_da_verifier_verify (fun _ _ _ => false) (some ⟨0⟩) (some default) 1
        none).2.isSome = true :=
  (c10_last_error_channel chunkToQ chunkFromQ).2.2.1 (fun _ _ _ => false) ⟨0⟩
    default 1 none (by decide) rfl

/-- C4: for encoded data produced with column count `c`, `nomos_da_encoded_data_get_share`
rejects every index outside `[0, c)` with `ErrorInvalidInput` and leaves the output
handle unwritten, while every index in `[0, c)` succeeds and yields a share whose
`share_idx` equals the requested index. -/
theorem c4_get_share_bounds {F : Type} [Field F] [DecidableEq F]
    (toF : List ℕ → F) (fromF : F → List ℕ) (c : ℕ) (blob : List ℕ)
    (data_len : ℕ) (st0 st : FfiState) (ed : EncodedData) (index : ℕ)
    (henc : (nomos_da_encoder_encode toF fromF (some (nomos_da_encoder_new c))
      (some blob) data_len true st0).2.1 = some ed) :
    (c ≤ index →
      (nomos_da_encoded_data_get_share (some ed) index true st).1 =
        NomosDaResult.ErrorInvalidInput ∧
      (nomos_da_encoded_data_get_share (some ed) index true st).2.1 = none) ∧
    (index < c →
      (nomos_da_encoded_data_get_share (some ed) index true st).1 =
        NomosDaResult.Success ∧
      ∃ sh, (nomos_da_encoded_data_get_share (some ed) index true st).2.1 =
          some sh ∧ sh.shareIdx = index) := by
  have hed := encoder_encode_success_eq toF fromF _ blob data_len st0 ed henc
  have hlen : ed.combinedColumnProofs.length = c := by
    rw [hed]
    exact encode_combinedColumnProofs_length toF fromF c blob
  constructor
  · intro hge
    have hnot : ¬ index < ed.combinedColumnProofs.length := by omega
    simp [nomos_da_encoded_data_get_share, EncodedData.to_da_share, hnot]
  · intro hlt
    have hidx : index < ed.combinedColumnProofs.length := by omega
    simp [nomos_da_encoded_data_get_share, EncodedData.to_da_share, hidx]

theorem c4_witness :
    ((nomos_da_encoded_data_get_share
        (some (encode chunkToQ chunkFromQ 2 (List.replicate 31 1))) 2 true
        none).1 = NomosDaResult.ErrorInvalidInput ∧
      (nomos_da_encoded_data_get_share
        (some (encode chunkToQ chunkFromQ 2 (List.replicate 31 1))) 2 true
        none).2.1 = none) ∧
    ((nomos_da_encoded_data_get_share
        (some (encode chunkToQ chunkFromQ 2 (List.replicate 31 1))) 0 true
        none).1 = NomosDaResult.Success ∧
      ∃ sh, (nomos_da_encoded_data_get_share
        (some (encode chunkToQ chunkFromQ 2 (List.replicate 31 1))) 0 true
        none).2.1 = some sh ∧ sh.shareIdx = 0) :=
  ⟨(c4_get_share_bounds chunkToQ chunkFromQ 2 (List.replicate 31 1) 31 none none
      (encode chunkToQ chunkFromQ 2 (List.replicate 31 1)) 2 rfl).1 (by decide),
   (c4_get_share_bounds chunkToQ chunkFromQ 2 (List.replicate 31 1) 31 none none
      (encode chunkToQ chunkFromQ 2 (List.replicate 31 1)) 0 rfl).2 (by decide)⟩

/-- C7: for every successfully encoded blob with column count `c`,
`nomos_da_encoded_data_get_share_count` returns exactly `c`. -/
theorem c7_share_count_eq_columns {F : Type} [Field F] [DecidableEq F]
    (toF : List ℕ → F) (fromF : F → List ℕ) (c : ℕ) (blob : List ℕ)
    (data_len : ℕ) (st0 : FfiState) (ed : EncodedData)
    (henc : (nomos_da_encoder_encode toF fromF (some (nomos_da_encoder_new c))
      (some blob) data_len true st0).2.1 = some ed) :
    nomos_da_encoded_data_get_share_count (some ed) = c := by
  have hed := encoder_encode_success_eq toF fromF _ blob data_len st0 ed henc
  rw [hed]
  exact encode_combinedColumnProofs_length toF fromF c blob

theorem c7_witness :
    nomos_da_encoded_data_get_share_count
      (some (encode chunkToQ chunkFromQ 4 (List.replicate 31 1))) = 4 :=
  c7_share_count_eq_columns chunkToQ chunkFromQ 4 (List.replicate 31 1) 31 none
    (encode chunkToQ chunkFromQ 4 (List.replicate 31 1)) rfl

/-- C8: serialization round-trips byte-exactly: for every share within the range
constraints of the real Rust types, deserializing the serialized buffer succeeds
and returns an equal share, and likewise for commitments values. -/
theorem c8_serialization_round_trip (s : DaShare) (c : DaSharesCommitments)
    (st1 st2 st3 st4 : FfiState) (hs : s.wf) (hc : c.wf) :
    (nomos_da_share_serialize (some s) true true st1).2.1 = some s.to_bytes ∧
    nomos_da_share_deserialize (some s.to_bytes) true st2 =
      (NomosDaResult.Success, some s, st2) ∧
    (nomos_da_commitments_serialize (some c) true true st3).2.1 =
      some c.to_bytes ∧
    nomos_da_commitments_deserialize (some c.to_bytes) true st4 =
      (NomosDaResult.Success, some c, st4) := by
  refine ⟨rfl, ?_, rfl, ?_⟩
  · simp [nomos_da_share_deserialize, share_to_bytes_length_ne_zero s,
      share_from_bytes_to_bytes s hs]
  · simp [nomos_da_commitments_deserialize,
      commitments_to_bytes_length_ne_zero c,
      commitments_from_bytes_to_bytes c hc]

/-- C1: for every non-empty blob whose length is a multiple of 31 and every
column count `c ∈ {2,4,8}`, encoding succeeds, each of the first
`chunks_per_row = c/2` shares is extracted successfully with `share_idx = i`, and
reconstructing from exactly those shares succeeds and returns the padded blob
byte for byte: the original bytes followed by zero padding up to a multiple of
`(c/2)*31` bytes.  The scalar field is abstract (`F`, with the injective chunk
embedding `toF`/`fromF` and distinct small evaluation points that the 31-byte
chunk width guarantees for the concrete BLS12-381 scalar field). -/
theorem c1_round_trip {F : Type} [Field F] [DecidableEq F]
    (toF : List ℕ → F) (fromF : F → List ℕ) (c : ℕ) (blob : List ℕ)
    (st : FfiState) (hc : c = 2 ∨ c = 4 ∨ c = 8) (hblob : blob ≠ [])
    (hlen : blob.length % 31 = 0) (hbytes : ∀ b ∈ blob, b < 256)
    (hInv : ∀ l : List ℕ, l.length = 31 → (∀ b ∈ l, b < 256) →
      fromF (toF l) = l)
    (hcast : ∀ a b : ℕ, a < c / 2 → b < c / 2 → (a : F) = (b : F) → a = b) :
    nomos_da_encoder_encode toF fromF (some (nomos_da_encoder_new c))
        (some blob) blob.length true st =
      (NomosDaResult.Success, some (encode toF fromF c blob), st) ∧
    (∀ i < c / 2, ∃ sh,
      nomos_da_encoded_data_get_share (some (encode toF fromF c blob)) i true
          st = (NomosDaResult.Success, some sh, st) ∧ sh.shareIdx = i) ∧
    ∃ pad,
      nomos_da_reconstruct toF fromF
          (some ((List.range (c / 2)).map (fun i =>
            (nomos_da_encoded_data_get_share (some (encode toF fromF c blob))
              i true st).2.1))) true true st =
        (NomosDaResult.Success, some (blob ++ List.replicate pad 0), st) ∧
      (blob.length + pad) % (c / 2 * 31) = 0 := by
  have hk : 0 < c / 2 := by
    rcases hc with rfl | rfl | rfl <;> norm_num
  have hlen0 : blob.length ≠ 0 := by
    simpa [List.length_eq_zero] using hblob
  have hproofs := encode_combinedColumnProofs_length toF fromF c blob
  have hshare : ∀ i, i < c / 2 →
      (encode toF fromF c blob).to_da_share i = some
      { column := (encode toF fromF c blob).extendedData.map
          (fun row => row.getD i zeroChunk)
        shareIdx := i
        combinedColumnProof :=
          (encode toF fromF c blob).combinedColumnProofs.getD i 0
        rowsCommitments := (encode toF fromF c blob).rowCommitments } := by
    intro i hi
    rw [EncodedData.to_da_share, if_pos]
    rw [hproofs]
    exact lt_of_lt_of_le hi (Nat.div_le_self c 2)
  have hgetshare : ∀ i, i < c / 2 →
      nomos_da_encoded_data_get_share (some (encode toF fromF c blob)) i true
        st = (NomosDaResult.Success,
          some (((encode toF fromF c blob).to_da_share i).getD default),
          st) := by
    intro i hi
    simp only [nomos_da_encoded_data_get_share, hshare i hi, Option.getD_some]
  have hblob_len : blob.length = (chunksOf 31 blob).length * 31 := by
    have hfl := chunksOf_flatten 31 (by norm_num) blob
    have hle := flatten_length_of_all_eq (chunksOf 31 blob) 31
      (chunksOf_length_eq 31 (by norm_num) blob
        (Nat.dvd_of_mod_eq_zero hlen))
    rw [hfl] at hle
    exact hle
  have hble : blob.length ≤
      (chunksOf (c / 2) (chunksOf 31 blob)).length * (c / 2) * 31 := by
    rw [hblob_len]
    exact Nat.mul_le_mul_right 31
      (chunksOf_length_bound (c / 2) hk (chunksOf 31 blob))
  refine ⟨?_, ?_, ?_⟩
  · simp [nomos_da_encoder_encode, hlen0, MAX_BLS12_381_ENCODING_CHUNK_SIZE,
      hlen, nomos_da_encoder_new, DaEncoderParams.default_with]
  · intro i hi
    refine ⟨_, hgetshare i hi, ?_⟩
    rw [hshare i hi]
    rfl
  · refine ⟨(chunksOf (c / 2) (chunksOf 31 blob)).length * (c / 2) * 31 -
      blob.length, ?_, ?_⟩
    · have hlist : (List.range (c / 2)).map (fun i =>
          (nomos_da_encoded_data_get_share (some (encode toF fromF c blob)) i
            true st).2.1) =
          (List.range (c / 2)).map (fun i => some
            (((encode toF fromF c blob).to_da_share i).getD default)) := by
        apply List.map_congr_left
        intro i hi
        rw [hgetshare i (List.mem_range.mp hi)]
      rw [hlist]
      have hlen_ne : ¬(((List.range (c / 2)).map (fun i => some
          (((encode toF fromF c blob).to_da_share i).getD
            default))).length = 0) := by
        simp only [List.length_map, List.length_range]
        omega
      have hfi : ((List.range (c / 2)).map (fun i => some
          (((encode toF fromF c blob).to_da_share i).getD
            default))).findIdx? (fun s => s.isNone) = none := by
        apply findIdx?_isNone_eq_none
        intro s hs
        obtain ⟨i, _, rfl⟩ := List.mem_map.mp hs
        exact Option.some_ne_none _
      have hmap2 : ((List.range (c / 2)).map (fun i => some
          (((encode toF fromF c blob).to_da_share i).getD
            default))).map (fun s => s.getD default) =
          (List.range (c / 2)).map (fun i =>
            ((encode toF fromF c blob).to_da_share i).getD default) := by
        rw [List.map_map]
        rfl
      have hrecon := reconstruct_systematic toF fromF c blob hk hlen hbytes
        hInv hcast
      have hne : blob ++ List.replicate ((chunksOf (c / 2) (chunksOf 31
          blob)).length * (c / 2) * 31 - blob.length) 0 ≠ [] := by
        intro h
        exact hblob (List.append_eq_nil.mp h).1
      have hef : (blob ++ List.replicate ((chunksOf (c / 2) (chunksOf 31
          blob)).length * (c / 2) * 31 - blob.length) 0).isEmpty = false := by
        simpa [List.isEmpty_iff] using hne
      simp only [nomos_da_reconstruct, hlen_ne, if_false, hfi, hmap2, hrecon,
        hef, Bool.false_eq_true]
    · have hsum : blob.length + ((chunksOf (c / 2) (chunksOf 31 blob)).length *
          (c / 2) * 31 - blob.length) =
          (chunksOf (c / 2) (chunksOf 31 blob)).length * (c / 2) * 31 := by
        omega
      rw [hsum, mul_assoc]
      exact Nat.mul_mod_left _ _

theorem c1_witness :
    ∃ pad,
      nomos_da_reconstruct chunkToQ chunkFromQ
          (some ((List.range (2 / 2)).map (fun i =>
            (nomos_da_encoded_data_get_share
              (some (encode chunkToQ chunkFromQ 2 (List.replicate 31 1)))
              i true none).2.1))) true true none =
        (NomosDaResult.Success,
          some (List.replicate 31 1 ++ List.replicate pad 0), none) ∧
      ((List.replicate 31 (1 : ℕ)).length + pad) % (2 / 2 * 31) = 0 :=
  (c1_round_trip chunkToQ chunkFromQ 2 (List.replicate 31 1) none
    (by decide) (by decide) (by decide) (by decide)
    (fun l h1 h2 => chunkFromQ_chunkToQ l h1 h2)
    (fun a b _ _ h => Nat.cast_injective h)).2.2

theorem c8_witness :
    nomos_da_share_deserialize
        (some (DaShare.to_bytes ⟨[[1, 2], []], 3, 4, [5, 6]⟩)) true none =
      (NomosDaResult.Success, some ⟨[[1, 2], []], 3, 4, [5, 6]⟩, none) ∧
    nomos_da_commitments_deserialize
        (some (DaSharesCommitments.to_bytes ⟨[7]⟩)) true none =
      (NomosDaResult.Success, some ⟨[7]⟩, none) :=
  ⟨(c8_serialization_round_trip ⟨[[1, 2], []], 3, 4, [5, 6]⟩ ⟨[7]⟩ none none none
      none (by unfold DaShare.wf; decide) (by unfold DaSharesCommitments.wf; decide)).2.1,
   (c8_serialization_round_trip ⟨[[1, 2], []], 3, 4, [5, 6]⟩ ⟨[7]⟩ none none none
      none (by unfold DaShare.wf; decide) (by unfold DaSharesCommitments.wf; decide)).2.2.2⟩

end NomosDa
